import Mathlib

/-!
Verification of the Merkle-tree library in `src/merkle_tree.rs`.

The development shallowly embeds the Rust source:
* bytes are `Nat` values (machine `u8` contents), byte strings are `List Nat`;
* the SHA3-256 primitive (the `sha3` crate the source calls into) is
  implemented concretely below (Keccak-f[1600], rate 136, suffix 0x06);
* `Node`, `MerkleTree`, `build`, `_build_up`, `get_root_hash` and `get_proof`
  are translated function for function from the source;
* recursion that Rust performs without a structural bound (`_build_up`, the
  `while position >= 2` loop, the sponge absorption loop) is expressed with an
  explicit fuel argument so every definition is a total, executable `def`;
  `none` results signal that the fuel ran out (i.e. the source recursion did
  not finish within that many steps) or that an `unwrap` panicked.
-/

/-! ## The hash primitive: SHA3-256 (Keccak-f[1600], rate 136 bytes) -/

/-- 64-bit left rotation on a `Nat` holding a value below `2 ^ 64`. -/
def rotl64 (x n : Nat) : Nat :=
  ((x <<< n) ||| (x >>> (64 - n))) % (2 ^ 64)

/-- Keccak rho-step rotation offsets (FIPS 202), one inner list per `y`
row, flattened so the offset of lane `(x, y)` sits at index `x + 5 * y`. -/
def rotOffsets : List Nat :=
  [[0, 1, 62, 28, 27],
   [36, 44, 6, 55, 20],
   [3, 10, 43, 25, 39],
   [41, 45, 15, 21, 8],
   [18, 2, 61, 56, 14]].flatten

/-- One step of the degree-8 LFSR (polynomial 0x171) that generates the
Keccak round constants. -/
def lfsrStep (r : Nat) : Nat :=
  if r &&& 0x80 ≠ 0 then ((r <<< 1) ^^^ 0x71) &&& 0xFF else (r <<< 1) &&& 0xFF

/-- Produce one 64-bit round constant from the LFSR state; returns the
constant and the advanced state.  Bit `2 ^ j - 1` of the constant is the
LFSR output bit of step `j`, for `j = 0, ..., 6`. -/
def rcOne (r0 : Nat) : Nat × Nat :=
  (List.range 7).foldl
    (fun acc j =>
      let rc := if acc.2 % 2 = 1 then acc.1 ||| (1 <<< (2 ^ j - 1)) else acc.1
      (rc, lfsrStep acc.2))
    (0, r0)

/-- The first `k` Keccak round constants, starting from LFSR state `r`. -/
def roundConstantsAux : Nat → Nat → List Nat
  | 0, _ => []
  | k + 1, r => (rcOne r).1 :: roundConstantsAux k (rcOne r).2

/-- The 24 round constants of Keccak-f[1600]. -/
def roundConstants : List Nat := roundConstantsAux 24 1

/-- One round of Keccak-f[1600] (theta, rho, pi, chi, iota).  The state is a
list of 25 lanes, each a `Nat` below `2 ^ 64`, stored at index `x + 5 * y`. -/
def keccakRound (st : List Nat) (rc : Nat) : List Nat :=
  let A : Nat → Nat → Nat := fun x y => st.getD (x + 5 * y) 0
  let C : Nat → Nat := fun x => A x 0 ^^^ A x 1 ^^^ A x 2 ^^^ A x 3 ^^^ A x 4
  let D : Nat → Nat := fun x => C ((x + 4) % 5) ^^^ rotl64 (C ((x + 1) % 5)) 1
  let A2 : Nat → Nat → Nat := fun x y => A x y ^^^ D x
  let B : Nat → Nat → Nat := fun x y =>
    rotl64 (A2 ((x + 3 * y) % 5) x) (rotOffsets.getD ((x + 3 * y) % 5 + 5 * x) 0)
  let A3 : Nat → Nat → Nat := fun x y =>
    B x y ^^^ ((B ((x + 1) % 5) y ^^^ (2 ^ 64 - 1)) &&& B ((x + 2) % 5) y)
  (List.range 25).map fun i =>
    if i = 0 then A3 0 0 ^^^ rc else A3 (i % 5) (i / 5)

/-- The full Keccak-f[1600] permutation: 24 rounds. -/
def keccakF (st : List Nat) : List Nat := roundConstants.foldl keccakRound st

/-- Interpret (up to) 8 bytes as one little-endian 64-bit lane. -/
def bytesToLane (bs : List Nat) : Nat :=
  (bs.take 8).foldr (fun b acc => acc * 256 + b) 0

/-- XOR one 136-byte rate block into the first 17 lanes of the state. -/
def xorBlock (st : List Nat) (block : List Nat) : List Nat :=
  (List.range 25).map fun i =>
    if i < 17 then st.getD i 0 ^^^ bytesToLane (block.drop (8 * i)) else st.getD i 0

/-- SHA3 `pad10*1` padding with the SHA3 domain suffix `0x06`; pads to a
multiple of the 136-byte rate. -/
def sha3Pad (msg : List Nat) : List Nat :=
  let padLen := 136 - msg.length % 136
  if padLen = 1 then msg ++ [0x86]
  else msg ++ [0x06] ++ List.replicate (padLen - 2) 0 ++ [0x80]

/-- Absorb the padded message block by block.  The fuel bounds the number of
blocks; `sha3` passes the message length, which is always enough. -/
def absorbAux : Nat → List Nat → List Nat → List Nat
  | 0, _, st => st
  | fuel + 1, bytes, st =>
    if bytes.isEmpty then st
    else absorbAux fuel (bytes.drop 136) (keccakF (xorBlock st (bytes.take 136)))

/-- The 8 bytes of one lane, little-endian. -/
def laneBytes (n : Nat) : List Nat :=
  [n % 256, n / 2 ^ 8 % 256, n / 2 ^ 16 % 256, n / 2 ^ 24 % 256,
   n / 2 ^ 32 % 256, n / 2 ^ 40 % 256, n / 2 ^ 48 % 256, n / 2 ^ 56 % 256]

/-- Squeeze the first 32 output bytes (lanes 0-3) — the SHA3-256 digest. -/
def squeeze32 (st : List Nat) : List Nat :=
  laneBytes (st.getD 0 0) ++ laneBytes (st.getD 1 0) ++
  laneBytes (st.getD 2 0) ++ laneBytes (st.getD 3 0)

/-- Embedding of `fn _sha3(input: &[u8]) -> Vec<u8>`: SHA3-256 of `input`
(the source feeds `input` to a `Sha3_256` hasher and collects the 32
result bytes). -/
def _sha3 (input : List Nat) : List Nat :=
  let padded := sha3Pad input
  squeeze32 (absorbAux (padded.length + 1) padded (List.replicate 25 0))

/-- Embedding of `fn _sha3_leaves(leaf_hash_1, leaf_hash_2) -> Vec<u8>`: the
source streams both slices into one `Sha3_256` hasher, which hashes their
concatenation. -/
def _sha3_leaves (leaf_hash_1 leaf_hash_2 : List Nat) : List Nat :=
  _sha3 (leaf_hash_1 ++ leaf_hash_2)

/-! ## The data model -/

/-- Embedding of `struct Node { left, right: Option<Box<Node>>, hash: Vec<u8> }`.
The source only ever creates the two shapes `Node::new_leaf` (both children
absent) and `Node::new_internal` (both children present), which the two
constructors mirror; `Node.left`/`Node.right` below recover the `Option`
fields. -/
inductive Node where
  | leaf : List Nat → Node
  | internal : List Nat → Node → Node → Node
deriving DecidableEq, Repr

/-- The `hash` field of a node. -/
def Node.hash : Node → List Nat
  | .leaf h => h
  | .internal h _ _ => h

/-- The `left` field of a node (`None` on a leaf). -/
def Node.left : Node → Option Node
  | .leaf _ => none
  | .internal _ l _ => some l

/-- The `right` field of a node (`None` on a leaf). -/
def Node.right : Node → Option Node
  | .leaf _ => none
  | .internal _ _ r => some r

/-- Embedding of `struct MerkleTree { root: Node, size: usize }`. -/
structure MerkleTree where
  root : Node
  size : Nat
deriving DecidableEq, Repr

/-! ## Tree construction (`build`, `_build_up`) -/

/-- The padding step at the top of `_build_up`: when the level has an odd
count, the last node is cloned and appended (`nodes.push(duplicate)`).
`getLastD` is `nodes[node_count - 1]`; the default is never used because the
odd-count branch implies the level is non-empty. -/
def padLevel (nodes : List Node) : List Node :=
  if nodes.length % 2 = 1 then nodes ++ [nodes.getLastD (Node.leaf [])] else nodes

/-- The pairing loop of `_build_up`: consecutive pairs `nodes[i], nodes[i+1]`
become one parent `Node::new_internal(_sha3_leaves(left.hash, right.hash),
left, right)`.  `_build_up` only runs this loop on the padded (hence
even-length) level. -/
def pairUp : List Node → List Node
  | left_child :: right_child :: rest =>
    Node.internal (_sha3_leaves left_child.hash right_child.hash)
      left_child right_child :: pairUp rest
  | _ => []

/-- Embedding of `fn _build_up(nodes: Vec<Box<Node>>) -> Vec<Box<Node>>`.
The Rust recursion has no structural bound, so it takes an explicit fuel;
`none` means the recursion did not return within `fuel` calls.  (On a
non-empty level the level count at least halves each call, so any fuel at
least the level count makes the fuel irrelevant; on the empty level the
source recurses forever — see `_build_up_empty`.) -/
def _build_up : Nat → List Node → Option (List Node)
  | 0, _ => none
  | fuel + 1, nodes =>
    if nodes.length = 1 then some nodes
    else _build_up fuel (pairUp (padLevel nodes))

/-- Embedding of `fn build(items: Vec<&[u8]>) -> Self`: hash every item into
a leaf, reduce with `_build_up`, take element `[0]` of the result as the
root and record the pre-padding item count as `size`.  The fuel
`items.length + 1` is always sufficient for a non-empty input; `none` models
the diverging/panicking executions (empty input). -/
def MerkleTree.build (items : List (List Nat)) : Option MerkleTree :=
  let leaves := items.map fun leaf_data => Node.leaf (_sha3 leaf_data)
  match _build_up (leaves.length + 1) leaves with
  | some (root :: _) => some { root := root, size := leaves.length }
  | _ => none

/-- Embedding of `fn get_root_hash(&self) -> &[u8]`. -/
def MerkleTree.get_root_hash (t : MerkleTree) : List Nat := t.root.hash

/-! ## Proof generation (`get_proof`) -/

/-- The `while position >= 2 { direction = position % 2; position /= 2 }`
loop of `get_proof`, collecting the direction bits in push order
(least-significant first).  The fuel bounds the iteration count;
`get_proof` passes the initial `position`, which always suffices since the
position at least halves every iteration. -/
def bitsUpAux : Nat → Nat → List Nat
  | 0, _ => []
  | fuel + 1, position =>
    if position ≥ 2 then position % 2 :: bitsUpAux fuel (position / 2) else []

/-- The smallest-power-of-two computation at the start of `get_proof`.  The
source computes `2f64.powf((size as f64).log2().ceil()) as usize`; this
embedding evaluates the same expression in exact real arithmetic,
`2 ^ ⌈log₂ size⌉`, via the fueled ceiling-log recursion `ceilLog2Aux`
(`⌈log₂ n⌉ = ⌈log₂ ⌈n / 2⌉⌉ + 1` for `n ≥ 2`).  The `f64` computation
returns exactly this value for every size that can occur (it first drifts
from the exact value near `size = 2 ^ 49`, far beyond any constructible
tree). -/
def ceilLog2Aux : Nat → Nat → Nat
  | 0, _ => 0
  | fuel + 1, n => if n ≤ 1 then 0 else ceilLog2Aux fuel ((n + 1) / 2) + 1

/-- Ceiling of `log₂ n` (0 for `n ≤ 1`). -/
def ceilLog2 (n : Nat) : Nat := ceilLog2Aux n n

/-- `level_size` as computed at the start of `get_proof`. -/
def levelSizeOf (size : Nat) : Nat := 2 ^ ceilLog2 size

/-- The root-to-leaf descent loop of `get_proof`.  For direction bit 1 the
sibling is `node.left.unwrap().hash` tagged `'l'` (108) and the walk
descends into `node.right.unwrap()`; for bit 0 the sibling is
`node.right.unwrap().hash` tagged `'r'` (114) and the walk descends left.
`none` models the `unwrap` panic on an absent child; the collected path is
in root-to-leaf push order. -/
def walk : List Nat → Node → Option (List (List Nat))
  | [], _ => some []
  | direction :: rest, node =>
    if direction = 1 then
      match node.left, node.right with
      | some l, some r => (walk rest r).map fun path => (l.hash ++ [108]) :: path
      | _, _ => none
    else
      match node.right, node.left with
      | some r, some l => (walk rest l).map fun path => (r.hash ++ [114]) :: path
      | _, _ => none

/-- Embedding of `fn get_proof(&self, index: usize) -> Option<Vec<Vec<u8>>>`.
The two in-place swap loops of the source reverse `directions` and `path`;
they are embedded as `List.reverse`.  Result convention: `some none` is the
source's `None` return (index out of range), `some (some proof)` is
`Some(proof)`, and `none` models a panic inside the walk. -/
def MerkleTree.get_proof (t : MerkleTree) (index : Nat) :
    Option (Option (List (List Nat))) :=
  if t.size ≤ index then some none
  else
    let position := levelSizeOf t.size + index
    let directions := (bitsUpAux position position).reverse
    match walk directions t.root with
    | some path => some (some path.reverse)
    | none => none

/-! ## The proof verifier -/

/-- One verifier step: a proof element is a 32-byte sibling digest followed
by a side tag, 108 (`'l'`) for a left-side sibling and 114 (`'r'`) for a
right-side one.  A left-side sibling is concatenated on the left of the
running hash, a right-side one on the right. -/
def verifyStep (current element : List Nat) : List Nat :=
  if element.getLast? = some 108 then _sha3_leaves element.dropLast current
  else _sha3_leaves current element.dropLast

/-- Fold a proof (in leaf-to-root order) onto a starting digest. -/
def foldProofFrom (start : List Nat) (proof : List (List Nat)) : List Nat :=
  proof.foldl verifyStep start

/-- Modelled from the spec: the Proof Verifier of §4.4 is absent from
`src/merkle_tree.rs` (the spec adds it as the logical counterpart of
`get_proof`).  Start from `current = hash_leaf(item)`, fold every
`(sibling_hash, side)` element in proof order — `current =
hash_internal(sibling, current)` for a left-side sibling, `current =
hash_internal(current, sibling)` for a right-side one — and compare the
result with the expected root. -/
def verify (item : List Nat) (proof : List (List Nat))
    (expected_root : List Nat) : Bool :=
  foldProofFrom (_sha3 item) proof == expected_root

/-! ## Arithmetic facts about the ceiling log -/

theorem ceilLog2Aux_fuel_irrel :
    ∀ (f₁ f₂ n : Nat), n ≤ f₁ → n ≤ f₂ → ceilLog2Aux f₁ n = ceilLog2Aux f₂ n := by
  intro f₁
  induction f₁ with
  | zero =>
    intro f₂ n h₁ _
    interval_cases n
    cases f₂ <;> simp [ceilLog2Aux]
  | succ f ih =>
    intro f₂ n h₁ h₂
    by_cases hn : n ≤ 1
    · cases f₂ with
      | zero =>
        interval_cases n
        all_goals simp [ceilLog2Aux]
      | succ g => simp [ceilLog2Aux, hn]
    · cases f₂ with
      | zero => omega
      | succ g =>
        simp only [ceilLog2Aux, hn, if_false]
        rw [ih g ((n + 1) / 2) (by omega) (by omega)]

theorem ceilLog2_step (n : Nat) (hn : 2 ≤ n) :
    ceilLog2 n = ceilLog2 ((n + 1) / 2) + 1 := by
  obtain ⟨f, rfl⟩ : ∃ f, n = f + 1 := ⟨n - 1, by omega⟩
  show ceilLog2Aux (f + 1) (f + 1) = _
  simp only [ceilLog2Aux, show ¬(f + 1 ≤ 1) by omega, if_false]
  rw [ceilLog2Aux_fuel_irrel f ((f + 2) / 2) ((f + 2) / 2) (by omega) (by omega)]
  rfl

theorem ceilLog2_le_one (n : Nat) (hn : n ≤ 1) : ceilLog2 n = 0 := by
  interval_cases n <;> rfl

theorem le_pow_ceilLog2 (n : Nat) : 1 ≤ n → n ≤ 2 ^ ceilLog2 n := by
  induction n using Nat.strong_induction_on with
  | _ n ih =>
    intro h1
    by_cases hn : n ≤ 1
    · interval_cases n
      simp [ceilLog2_le_one]
    · rw [ceilLog2_step n (by omega), pow_succ]
      have hrec := ih ((n + 1) / 2) (by omega) (by omega)
      omega

theorem ceilLog2_le (n m : Nat) (h : n ≤ 2 ^ m) : ceilLog2 n ≤ m := by
  induction n using Nat.strong_induction_on generalizing m with
  | _ n ih =>
    by_cases hn : n ≤ 1
    · rw [ceilLog2_le_one n hn]; omega
    · cases m with
      | zero => simp at h; omega
      | succ m' =>
        rw [ceilLog2_step n (by omega)]
        have : (n + 1) / 2 ≤ 2 ^ m' := by
          rw [pow_succ] at h; omega
        exact Nat.succ_le_succ (ih ((n + 1) / 2) (by omega) m' this)

theorem ceilLog2_eq_zero_iff (n : Nat) : ceilLog2 n = 0 ↔ n ≤ 1 := by
  constructor
  · intro h
    by_contra hn
    rw [ceilLog2_step n (by omega)] at h
    omega
  · exact ceilLog2_le_one n

/-! ## The direction-bit derivation -/

/-- The `k` binary digits of `i` (`i < 2 ^ k`), most significant first: this
is what reversing the collected direction bits produces. -/
def msbBits : Nat → Nat → List Nat
  | 0, _ => []
  | k + 1, i => (i / 2 ^ k) :: msbBits k (i % 2 ^ k)

theorem msbBits_length : ∀ (k i : Nat), (msbBits k i).length = k := by
  intro k
  induction k with
  | zero => intro i; rfl
  | succ k ih => intro i; simp [msbBits, ih]

theorem msbBits_succ :
    ∀ (k i : Nat), i < 2 ^ (k + 1) →
      msbBits (k + 1) i = msbBits k (i / 2) ++ [i % 2] := by
  intro k
  induction k with
  | zero =>
    intro i hi
    simp only [msbBits, pow_zero, Nat.div_one, List.nil_append]
    interval_cases i <;> rfl
  | succ k ih =>
    intro i hi
    have h1 : i / 2 ^ (k + 1) = i / 2 / 2 ^ k := by
      rw [Nat.div_div_eq_div_mul, pow_succ, Nat.mul_comm]
    have h2 : i % 2 ^ (k + 1) / 2 = i / 2 % 2 ^ k := by
      have := Nat.mod_mul_right_div_self i 2 (2 ^ k)
      rwa [show 2 * 2 ^ k = 2 ^ (k + 1) by rw [pow_succ, Nat.mul_comm]] at this
    have h3 : i % 2 ^ (k + 1) % 2 = i % 2 :=
      Nat.mod_mod_of_dvd i ⟨2 ^ k, by rw [pow_succ, Nat.mul_comm]⟩
    have h4 : i % 2 ^ (k + 1) < 2 ^ (k + 1) :=
      Nat.mod_lt _ (Nat.pos_pow_of_pos _ (by omega))
    calc msbBits (k + 2) i
        = (i / 2 ^ (k + 1)) :: msbBits (k + 1) (i % 2 ^ (k + 1)) := rfl
      _ = (i / 2 ^ (k + 1)) ::
            (msbBits k (i % 2 ^ (k + 1) / 2) ++ [i % 2 ^ (k + 1) % 2]) := by
          rw [ih _ h4]
      _ = (i / 2 / 2 ^ k) :: (msbBits k (i / 2 % 2 ^ k) ++ [i % 2]) := by
          rw [h1, h2, h3]
      _ = msbBits (k + 1) (i / 2) ++ [i % 2] := rfl

theorem bitsUpAux_reverse :
    ∀ (k i fuel : Nat), i < 2 ^ k → 2 ^ k ≤ fuel →
      (bitsUpAux fuel (2 ^ k + i)).reverse = msbBits k i := by
  intro k
  induction k with
  | zero =>
    intro i fuel hi hfuel
    interval_cases i
    obtain ⟨f, rfl⟩ : ∃ f, fuel = f + 1 := ⟨fuel - 1, by omega⟩
    simp [bitsUpAux, msbBits]
  | succ k ih =>
    intro i fuel hi hfuel
    have hp2 : (1 : Nat) ≤ 2 ^ k := Nat.one_le_two_pow
    have hpow : 2 ^ (k + 1) = 2 * 2 ^ k := by rw [pow_succ, Nat.mul_comm]
    obtain ⟨f, rfl⟩ : ∃ f, fuel = f + 1 := ⟨fuel - 1, by omega⟩
    have hge : 2 ^ (k + 1) + i ≥ 2 := by omega
    have hmod : (2 ^ (k + 1) + i) % 2 = i % 2 := by omega
    have hdiv : (2 ^ (k + 1) + i) / 2 = 2 ^ k + i / 2 := by omega
    simp only [bitsUpAux, hge, if_pos, hmod, hdiv, List.reverse_cons]
    rw [ih (i / 2) f (by omega) (by omega)]
    rw [msbBits_succ k i hi]

/-! ## Structural predicates on the trees the builder produces -/

/-- A perfect binary tree of the given height: every node at level `k + 1`
built by `_build_up` has two height-`k` children. -/
inductive PerfectTree : Nat → Node → Prop
  | leaf (h : List Nat) : PerfectTree 0 (.leaf h)
  | internal (h : List Nat) (l r : Node) (k : Nat) :
      PerfectTree k l → PerfectTree k r → PerfectTree (k + 1) (.internal h l r)

/-- The hash invariant of the spec's data model, relative to the set `S` of
admissible leaf digests: an internal node's hash is `_sha3_leaves` of its
children's hashes, and a leaf's hash is a member of `S`. -/
def hashInvariant (S : List (List Nat)) : Node → Prop
  | .leaf h => h ∈ S
  | .internal h l r =>
    h = _sha3_leaves l.hash r.hash ∧ hashInvariant S l ∧ hashInvariant S r

/-- Every digest stored in the tree is 32 bytes long. -/
def allLen32 : Node → Prop
  | .leaf h => h.length = 32
  | .internal h l r => h.length = 32 ∧ allLen32 l ∧ allLen32 r

/-- The left-to-right sequence of leaf digests under a node. -/
def frontierOf : Node → List (List Nat)
  | .leaf h => [h]
  | .internal _ l r => frontierOf l ++ frontierOf r

theorem _sha3_length (input : List Nat) : (_sha3 input).length = 32 := by
  simp [_sha3, squeeze32, laneBytes]

theorem _sha3_leaves_length (h₁ h₂ : List Nat) :
    (_sha3_leaves h₁ h₂).length = 32 := _sha3_length _

theorem allLen32_hash {n : Node} (h : allLen32 n) : n.hash.length = 32 := by
  cases n with
  | leaf h' => exact h
  | internal h' l r => exact h.1

theorem frontier_length {k : Nat} {n : Node} (h : PerfectTree k n) :
    (frontierOf n).length = 2 ^ k := by
  induction h with
  | leaf h => rfl
  | internal h l r k hl hr ihl ihr =>
    simp [frontierOf, ihl, ihr, pow_succ]
    omega

/-! ## Lemmas about the level-reduction steps -/

theorem getLastD_mem : ∀ (l : List Node) (d : Node), l ≠ [] → l.getLastD d ∈ l := by
  intro l
  induction l with
  | nil => intro d h; exact absurd rfl h
  | cons a rest ih =>
    intro d _
    cases rest with
    | nil => simp [List.getLastD]
    | cons b rest' =>
      rw [show (a :: b :: rest').getLastD d = (b :: rest').getLastD a from rfl]
      exact List.mem_cons_of_mem a (ih a (by simp))

theorem padLevel_mem {nodes : List Node} {x : Node} (h : x ∈ padLevel nodes) :
    x ∈ nodes := by
  unfold padLevel at h
  by_cases hodd : nodes.length % 2 = 1
  · rw [if_pos hodd] at h
    rcases List.mem_append.mp h with h' | h'
    · exact h'
    · have hne : nodes ≠ [] := by
        intro he; rw [he] at hodd; simp at hodd
      simp only [List.mem_singleton] at h'
      rw [h']
      exact getLastD_mem nodes _ hne
  · rwa [if_neg hodd] at h

theorem padLevel_length (nodes : List Node) :
    (padLevel nodes).length = nodes.length + nodes.length % 2 := by
  unfold padLevel
  by_cases hodd : nodes.length % 2 = 1
  · rw [if_pos hodd]; simp [hodd]
  · rw [if_neg hodd]; omega

theorem padLevel_length_even (nodes : List Node) :
    (padLevel nodes).length % 2 = 0 := by
  rw [padLevel_length]; omega

theorem pairUp_length : ∀ (l : List Node), (pairUp l).length = l.length / 2
  | [] => by simp [pairUp]
  | [_] => by simp [pairUp]
  | _ :: _ :: rest => by
    simp only [pairUp, List.length_cons, pairUp_length rest]
    omega

theorem pairUp_mem : ∀ (l : List Node) (x : Node), x ∈ pairUp l →
    ∃ a b, a ∈ l ∧ b ∈ l ∧ x = Node.internal (_sha3_leaves a.hash b.hash) a b
  | [], x, h => by simp [pairUp] at h
  | [_], x, h => by simp [pairUp] at h
  | a :: b :: rest, x, h => by
    simp only [pairUp, List.mem_cons] at h
    rcases h with h | h
    · exact ⟨a, b, by simp, by simp, h⟩
    · obtain ⟨a', b', ha', hb', hx⟩ := pairUp_mem rest x h
      exact ⟨a', b', by simp [ha'], by simp [hb'], hx⟩

theorem pairUp_frontiers : ∀ (l : List Node), l.length % 2 = 0 →
    ((pairUp l).map frontierOf).flatten = (l.map frontierOf).flatten
  | [], _ => rfl
  | [_], h => by simp at h
  | a :: b :: rest, h => by
    have hrest : rest.length % 2 = 0 := by
      simp only [List.length_cons] at h; omega
    simp only [pairUp, List.map_cons, List.flatten_cons, frontierOf,
      pairUp_frontiers rest hrest, List.append_assoc]

/-! ## Soundness and totality of `_build_up` -/

theorem _build_up_empty : ∀ (fuel : Nat), _build_up fuel [] = none := by
  intro fuel
  induction fuel with
  | zero => rfl
  | succ f ih =>
    show _build_up (f + 1) [] = none
    simp only [_build_up, List.length_nil]
    rw [show padLevel [] = [] from rfl, show pairUp [] = [] from rfl]
    simpa using ih

theorem _build_up_singleton :
    ∀ (fuel : Nat) (nodes res : List Node), _build_up fuel nodes = some res →
      ∃ root, res = [root] := by
  intro fuel
  induction fuel with
  | zero => intro nodes res h; simp [_build_up] at h
  | succ f ih =>
    intro nodes res h
    simp only [_build_up] at h
    by_cases h1 : nodes.length = 1
    · rw [if_pos h1] at h
      obtain ⟨a, rfl⟩ := List.length_eq_one.mp h1
      exact ⟨a, by simpa using h.symm⟩
    · rw [if_neg h1] at h
      exact ih _ _ h

theorem _build_up_sound :
    ∀ (fuel : Nat) (nodes : List Node) (root : Node) (k : Nat),
      _build_up fuel nodes = some [root] →
      (∀ x ∈ nodes, PerfectTree k x) →
      PerfectTree (k + ceilLog2 nodes.length) root ∧
      (∃ tail, frontierOf root = (nodes.map frontierOf).flatten ++ tail) ∧
      (∀ S, (∀ x ∈ nodes, hashInvariant S x) → hashInvariant S root) ∧
      ((∀ x ∈ nodes, allLen32 x) → allLen32 root) := by
  intro fuel
  induction fuel with
  | zero => intro nodes root k h; simp [_build_up] at h
  | succ f ih =>
    intro nodes root k h hperf
    have hne : nodes.length ≠ 0 := by
      intro he
      rw [List.length_eq_zero.mp he, _build_up_empty (f + 1)] at h
      simp at h
    simp only [_build_up] at h
    by_cases h1 : nodes.length = 1
    · rw [if_pos h1] at h
      obtain ⟨b, hb⟩ := List.length_eq_one.mp h1
      have hroot : root = b := by
        rw [hb] at h; simpa using h.symm
      subst hroot
      refine ⟨?_, ⟨[], by rw [hb]; simp⟩, fun S hS => ?_, fun hL => ?_⟩
      · rw [h1, show ceilLog2 1 = 0 from rfl]
        exact hperf root (by rw [hb]; simp)
      · exact hS root (by rw [hb]; simp)
      · exact hL root (by rw [hb]; simp)
    · rw [if_neg h1] at h
      have hlen2 : 2 ≤ nodes.length := by omega
      have hpadlen : (padLevel nodes).length = nodes.length + nodes.length % 2 :=
        padLevel_length nodes
      have hpairlen : (pairUp (padLevel nodes)).length = (nodes.length + 1) / 2 := by
        rw [pairUp_length, hpadlen]; omega
      have hnext : ∀ x ∈ pairUp (padLevel nodes), PerfectTree (k + 1) x := by
        intro x hx
        obtain ⟨a', b', ha', hb', rfl⟩ := pairUp_mem _ _ hx
        exact PerfectTree.internal _ _ _ k
          (hperf a' (padLevel_mem ha')) (hperf b' (padLevel_mem hb'))
      obtain ⟨hP, ⟨tail, htail⟩, hInv, hLen⟩ := ih _ root (k + 1) h hnext
      refine ⟨?_, ?_, fun S hS => ?_, fun hL => ?_⟩
      · rw [hpairlen] at hP
        rw [ceilLog2_step nodes.length hlen2]
        have : k + 1 + ceilLog2 ((nodes.length + 1) / 2)
            = k + (ceilLog2 ((nodes.length + 1) / 2) + 1) := by omega
        rwa [this] at hP
      · rw [htail, pairUp_frontiers _ (padLevel_length_even nodes)]
        unfold padLevel
        by_cases hodd : nodes.length % 2 = 1
        · rw [if_pos hodd]
          exact ⟨frontierOf (nodes.getLastD (Node.leaf [])) ++ tail, by
            simp [List.append_assoc]⟩
        · rw [if_neg hodd]
          exact ⟨tail, rfl⟩
      · refine hInv S ?_
        intro x hx
        obtain ⟨a', b', ha', hb', rfl⟩ := pairUp_mem _ _ hx
        exact ⟨rfl, hS a' (padLevel_mem ha'), hS b' (padLevel_mem hb')⟩
      · refine hLen ?_
        intro x hx
        obtain ⟨a', b', ha', hb', rfl⟩ := pairUp_mem _ _ hx
        exact ⟨_sha3_leaves_length _ _, hL a' (padLevel_mem ha'),
          hL b' (padLevel_mem hb')⟩

theorem _build_up_total :
    ∀ (fuel : Nat) (nodes : List Node), 1 ≤ nodes.length → nodes.length ≤ fuel →
      ∃ root, _build_up fuel nodes = some [root] := by
  intro fuel
  induction fuel with
  | zero => intro nodes h1 h2; omega
  | succ f ih =>
    intro nodes h1 h2
    by_cases hlen : nodes.length = 1
    · obtain ⟨a, rfl⟩ := List.length_eq_one.mp hlen
      exact ⟨a, by simp [_build_up]⟩
    · have hlen2 : 2 ≤ nodes.length := by omega
      have hpairlen : (pairUp (padLevel nodes)).length = (nodes.length + 1) / 2 := by
        rw [pairUp_length, padLevel_length]; omega
      obtain ⟨root, hroot⟩ := ih (pairUp (padLevel nodes))
        (by omega) (by omega)
      exact ⟨root, by simp only [_build_up, if_neg hlen]; exact hroot⟩

/-! ## Correctness of the root-to-leaf walk -/

/-- Only the internal-hash half of the invariant, which is what relates the
walk's sibling hashes to the root. -/
def goodHashes : Node → Prop
  | .leaf _ => True
  | .internal h l r => h = _sha3_leaves l.hash r.hash ∧ goodHashes l ∧ goodHashes r

theorem hashInvariant_good {S : List (List Nat)} :
    ∀ {n : Node}, hashInvariant S n → goodHashes n
  | .leaf _, _ => trivial
  | .internal h l r, ⟨hh, hl, hr⟩ =>
    ⟨hh, hashInvariant_good hl, hashInvariant_good hr⟩

theorem walk_correct :
    ∀ (k : Nat) (n : Node) (i : Nat), PerfectTree k n → i < 2 ^ k →
      ∃ path, walk (msbBits k i) n = some path ∧ path.length = k ∧
        (goodHashes n →
          foldProofFrom ((frontierOf n).getD i []) path.reverse = n.hash) := by
  intro k
  induction k with
  | zero =>
    intro n i hp hi
    interval_cases i
    refine ⟨[], rfl, rfl, fun _ => ?_⟩
    cases hp with
    | leaf h => rfl
  | succ k ih =>
    intro n i hp hi
    cases hp with
    | internal h l r k hl hr =>
    have hpow : 2 ^ (k + 1) = 2 * 2 ^ k := by rw [pow_succ, Nat.mul_comm]
    rw [hpow] at hi
    have hposk : 0 < 2 ^ k := Nat.pos_pow_of_pos _ (by omega)
    have hlfront : (frontierOf l).length = 2 ^ k := frontier_length hl
    have hmsb : msbBits (k + 1) i = (i / 2 ^ k) :: msbBits k (i % 2 ^ k) := rfl
    have himod : i % 2 ^ k < 2 ^ k := Nat.mod_lt _ hposk
    rcases Nat.lt_or_ge i (2 ^ k) with hilt | hile
    · -- left descent: direction bit 0, sibling is the right child, tagged 'r'
      have hbit : i / 2 ^ k = 0 := Nat.div_eq_of_lt hilt
      have himod' : i % 2 ^ k = i := Nat.mod_eq_of_lt hilt
      obtain ⟨path, hwalk, hlen, hfold⟩ := ih l i hl hilt
      refine ⟨(r.hash ++ [114]) :: path, ?_, by simp [hlen], fun hg => ?_⟩
      · rw [hmsb, hbit, himod']
        simp only [walk, show (0 : Nat) ≠ 1 by omega, if_false, Node.left, Node.right]
        rw [hwalk]; rfl
      · obtain ⟨hh, hgl, hgr⟩ := hg
        have hgetD : (frontierOf (Node.internal h l r)).getD i [] = (frontierOf l).getD i [] := by
          show (frontierOf l ++ frontierOf r).getD i [] = _
          rw [List.getD_eq_getElem?_getD, List.getElem?_append_left (by omega),
            ← List.getD_eq_getElem?_getD]
        rw [List.reverse_cons, hgetD]
        unfold foldProofFrom
        rw [List.foldl_append]
        show verifyStep (foldProofFrom ((frontierOf l).getD i []) path.reverse) _ = _
        rw [hfold hgl]
        unfold verifyStep
        rw [List.getLast?_concat, List.dropLast_concat]
        simp only [show (some (114 : Nat) = some 108) = False by simp, if_false]
        exact hh.symm
    · -- right descent: direction bit 1, sibling is the left child, tagged 'l'
      have hbit : i / 2 ^ k = 1 := by
        have h1 : 1 ≤ i / 2 ^ k := (Nat.one_le_div_iff hposk).mpr hile
        have h2 : i / 2 ^ k < 2 := Nat.div_lt_of_lt_mul (by omega)
        omega
      have himod' : i % 2 ^ k = i - 2 ^ k := by
        rw [Nat.mod_eq_sub_mod hile, Nat.mod_eq_of_lt (by omega)]
      obtain ⟨path, hwalk, hlen, hfold⟩ := ih r (i % 2 ^ k) hr himod
      refine ⟨(l.hash ++ [108]) :: path, ?_, by simp [hlen], fun hg => ?_⟩
      · rw [hmsb, hbit]
        simp only [walk, if_pos rfl, Node.left, Node.right]
        rw [hwalk]; rfl
      · obtain ⟨hh, hgl, hgr⟩ := hg
        have hgetD : (frontierOf (Node.internal h l r)).getD i []
            = (frontierOf r).getD (i % 2 ^ k) [] := by
          show (frontierOf l ++ frontierOf r).getD i [] = _
          rw [List.getD_eq_getElem?_getD, List.getElem?_append_right (by omega),
            ← List.getD_eq_getElem?_getD, hlfront, himod']
        rw [List.reverse_cons, hgetD]
        unfold foldProofFrom
        rw [List.foldl_append]
        show verifyStep (foldProofFrom ((frontierOf r).getD (i % 2 ^ k) []) path.reverse) _ = _
        rw [hfold hgr]
        unfold verifyStep
        rw [List.getLast?_concat, List.dropLast_concat]
        simp only [if_pos rfl]
        exact hh.symm

theorem walk_elements :
    ∀ (dirs : List Nat) (n : Node) (path : List (List Nat)),
      walk dirs n = some path → allLen32 n →
      ∀ e ∈ path, e.length = 33 ∧ (e.getLast? = some 108 ∨ e.getLast? = some 114) := by
  intro dirs
  induction dirs with
  | nil =>
    intro n path h _ e he
    simp only [walk] at h
    rw [← Option.some_inj.mp h] at he
    simp at he
  | cons d rest ih =>
    intro n path h hlen e he
    cases n with
    | leaf h' => simp [walk, Node.left, Node.right] at h
    | internal h' l r =>
      obtain ⟨hh, hal, har⟩ := hlen
      by_cases hd : d = 1
      · rw [hd] at h
        simp only [walk, if_pos rfl, Node.left, Node.right] at h
        cases hw : walk rest r with
        | none => rw [hw] at h; simp at h
        | some path' =>
          rw [hw] at h
          simp only [if_true, Option.map_some', Option.some_inj] at h
          rw [← h] at he
          rcases List.mem_cons.mp he with rfl | he'
          · constructor
            · simp [allLen32_hash hal]
            · left; exact List.getLast?_concat _
          · exact ih r path' hw har e he'
      · simp only [walk, if_neg hd, Node.left, Node.right] at h
        cases hw : walk rest l with
        | none => rw [hw] at h; simp at h
        | some path' =>
          rw [hw] at h
          simp only [Option.map_some', Option.some_inj] at h
          rw [← h] at he
          rcases List.mem_cons.mp he with rfl | he'
          · constructor
            · simp [allLen32_hash har]
            · right; exact List.getLast?_concat _
          · exact ih l path' hw hal e he'

/-! ## What `build` guarantees -/

theorem flatten_map_leaf_frontiers (items : List (List Nat)) :
    ((items.map fun d => Node.leaf (_sha3 d)).map frontierOf).flatten
      = items.map _sha3 := by
  induction items with
  | nil => rfl
  | cons a rest ih =>
    simp only [List.map_cons, List.flatten_cons, frontierOf]
    rw [ih]
    rfl

/-- `build` with its `let` zeta-expanded, for rewriting. -/
theorem build_eq (items : List (List Nat)) :
    MerkleTree.build items =
      match _build_up ((items.map fun d => Node.leaf (_sha3 d)).length + 1)
          (items.map fun d => Node.leaf (_sha3 d)) with
      | some (root :: _) =>
        some ⟨root, (items.map fun d => Node.leaf (_sha3 d)).length⟩
      | _ => none := rfl

theorem build_eq_some {items : List (List Nat)} {t : MerkleTree}
    (hb : MerkleTree.build items = some t) :
    t.size = items.length ∧ 1 ≤ items.length ∧
    PerfectTree (ceilLog2 items.length) t.root ∧
    hashInvariant (items.map _sha3) t.root ∧
    (∃ tail, frontierOf t.root = items.map _sha3 ++ tail) ∧
    allLen32 t.root := by
  rw [build_eq] at hb
  rcases hres : _build_up ((items.map fun d => Node.leaf (_sha3 d)).length + 1)
      (items.map fun d => Node.leaf (_sha3 d)) with _ | res
  · rw [hres] at hb
    exact absurd hb (by simp)
  obtain ⟨root, rfl⟩ := _build_up_singleton _ _ _ hres
  rw [hres] at hb
  replace hb : MerkleTree.mk root ((items.map fun d => Node.leaf (_sha3 d)).length) = t :=
    Option.some_inj.mp hb
  have hne : 1 ≤ items.length := by
    by_contra hcon
    have hnil : items = [] := by
      cases items with
      | nil => rfl
      | cons a rest => simp at hcon
    rw [hnil] at hres
    rw [show (([] : List (List Nat)).map fun d => Node.leaf (_sha3 d)) = [] from rfl,
      _build_up_empty] at hres
    simp at hres
  have hperf0 : ∀ x ∈ items.map fun d => Node.leaf (_sha3 d), PerfectTree 0 x := by
    intro x hx
    obtain ⟨d, _, rfl⟩ := List.mem_map.mp hx
    exact PerfectTree.leaf _
  obtain ⟨hP, ⟨tail, htail⟩, hInv, hLen⟩ := _build_up_sound _ _ root 0 hres hperf0
  have hsz : t.size = items.length := by rw [← hb]; simp
  have hrt : t.root = root := by rw [← hb]
  refine ⟨hsz, hne, ?_, ?_, ?_, ?_⟩
  · rw [hrt]
    simpa using hP
  · rw [hrt]
    refine hInv (items.map _sha3) ?_
    intro x hx
    obtain ⟨d, hd, rfl⟩ := List.mem_map.mp hx
    show _sha3 d ∈ items.map _sha3
    exact List.mem_map.mpr ⟨d, hd, rfl⟩
  · rw [hrt, htail, flatten_map_leaf_frontiers]
    exact ⟨tail, rfl⟩
  · rw [hrt]
    refine hLen ?_
    intro x hx
    obtain ⟨d, _, rfl⟩ := List.mem_map.mp hx
    exact _sha3_length d

theorem build_total (items : List (List Nat)) (hne : items ≠ []) :
    ∃ t, MerkleTree.build items = some t := by
  have hlen : 1 ≤ (items.map fun d => Node.leaf (_sha3 d)).length := by
    rw [List.length_map]
    cases items with
    | nil => exact absurd rfl hne
    | cons a rest => simp
  obtain ⟨root, hroot⟩ :=
    _build_up_total ((items.map fun d => Node.leaf (_sha3 d)).length + 1) _ hlen (by omega)
  refine ⟨⟨root, (items.map fun d => Node.leaf (_sha3 d)).length⟩, ?_⟩
  rw [build_eq, hroot]

/-- The single lemma about `get_proof` on a built tree from which the proof
claims follow: for every in-range index the walk succeeds, the proof has
`⌈log₂ size⌉` elements, it recomputes the root from the leaf hash, and every
element is a 32-byte digest plus a one-byte side tag. -/
theorem get_proof_spec {items : List (List Nat)} {t : MerkleTree} (i : Nat)
    (hb : MerkleTree.build items = some t) (hi : i < t.size) :
    ∃ proof, t.get_proof i = some (some proof) ∧
      proof.length = ceilLog2 t.size ∧
      foldProofFrom (_sha3 (items.getD i [])) proof = t.get_root_hash ∧
      ∀ e ∈ proof, e.length = 33 ∧ (e.getLast? = some 108 ∨ e.getLast? = some 114) := by
  obtain ⟨hsz, hne, hP, hInv, ⟨tail, htail⟩, hLen⟩ := build_eq_some hb
  set k := ceilLog2 items.length with hk
  have hik : i < 2 ^ k := by
    have h2 := le_pow_ceilLog2 items.length hne
    rw [← hk] at h2
    omega
  obtain ⟨path, hwalk, hplen, hfold⟩ := walk_correct k t.root i hP hik
  have hdirs : (bitsUpAux (levelSizeOf t.size + i) (levelSizeOf t.size + i)).reverse
      = msbBits k i := by
    have hls : levelSizeOf t.size = 2 ^ k := by
      rw [hsz]
      show 2 ^ ceilLog2 items.length = 2 ^ k
      rw [← hk]
    rw [hls]
    exact bitsUpAux_reverse k i (2 ^ k + i) hik (by omega)
  have hproof : t.get_proof i = some (some path.reverse) := by
    unfold MerkleTree.get_proof
    rw [if_neg (by omega)]
    simp only [hdirs, hwalk]
  refine ⟨path.reverse, hproof, by simpa [hsz, hk] using hplen, ?_, ?_⟩
  · have hstart : (frontierOf t.root).getD i [] = _sha3 (items.getD i []) := by
      rw [htail, List.getD_eq_getElem?_getD,
        List.getElem?_append_left (by rw [List.length_map]; omega),
        List.getElem?_map, List.getD_eq_getElem?_getD,
        List.getElem?_eq_getElem (by omega : i < items.length)]
      simp
    rw [← hstart]
    exact hfold (hashInvariant_good hInv)
  · intro e he
    exact walk_elements _ _ _ hwalk hLen e (List.mem_reverse.mp he)

/-! ## Concrete trees used by the witnesses (hashes left symbolic) -/

/-- The tree `build` returns for the single item `[1]`. -/
def exampleTree1 : MerkleTree := ⟨Node.leaf (_sha3 [1]), 1⟩

/-- The tree `build` returns for the two items `[1], [2]`. -/
def exampleTree2 : MerkleTree :=
  ⟨Node.internal (_sha3_leaves (_sha3 [1]) (_sha3 [2]))
      (Node.leaf (_sha3 [1])) (Node.leaf (_sha3 [2])), 2⟩

/-- The tree `build` returns for the three items `[1], [2], [3]`: the odd
leaf level is padded with a clone of the third leaf. -/
def exampleTree3 : MerkleTree :=
  ⟨Node.internal
      (_sha3_leaves (_sha3_leaves (_sha3 [1]) (_sha3 [2]))
        (_sha3_leaves (_sha3 [3]) (_sha3 [3])))
      (Node.internal (_sha3_leaves (_sha3 [1]) (_sha3 [2]))
        (Node.leaf (_sha3 [1])) (Node.leaf (_sha3 [2])))
      (Node.internal (_sha3_leaves (_sha3 [3]) (_sha3 [3]))
        (Node.leaf (_sha3 [3])) (Node.leaf (_sha3 [3]))),
    3⟩

/-! ## Step equations used to evaluate `build` on the three-item example -/

theorem _build_up_step (fuel : Nat) (nodes : List Node) (h : nodes.length ≠ 1) :
    _build_up (fuel + 1) nodes = _build_up fuel (pairUp (padLevel nodes)) := by
  rw [_build_up.eq_2, if_neg h]

theorem _build_up_one (fuel : Nat) (nodes : List Node) (h : nodes.length = 1) :
    _build_up (fuel + 1) nodes = some nodes := by
  rw [_build_up.eq_2, if_pos h]

theorem padLevel_odd (nodes : List Node) (h : nodes.length % 2 = 1) :
    padLevel nodes = nodes ++ [nodes.getLastD (Node.leaf [])] := if_pos h

theorem padLevel_even (nodes : List Node) (h : nodes.length % 2 ≠ 1) :
    padLevel nodes = nodes := if_neg h

/-- The reduction of `build` on the three items `[1], [2], [3]`, carried out
step by step through the level reduction: one padding step (the third leaf
is cloned), two pairing steps, and the final single node becomes the root. -/
theorem build3_eq : MerkleTree.build [[1], [2], [3]] = some exampleTree3 := by
  rw [build_eq]
  rw [show List.map (fun d => Node.leaf (_sha3 d)) [[1], [2], [3]]
      = [Node.leaf (_sha3 [1]), Node.leaf (_sha3 [2]), Node.leaf (_sha3 [3])] from rfl]
  rw [show ([Node.leaf (_sha3 [1]), Node.leaf (_sha3 [2]),
      Node.leaf (_sha3 [3])] : List Node).length + 1 = 4 from rfl]
  rw [_build_up_step 3 _ (by simp), padLevel_odd _ (by simp)]
  rw [show pairUp ([Node.leaf (_sha3 [1]), Node.leaf (_sha3 [2]), Node.leaf (_sha3 [3])]
        ++ [([Node.leaf (_sha3 [1]), Node.leaf (_sha3 [2]),
             Node.leaf (_sha3 [3])] : List Node).getLastD (Node.leaf [])])
      = [Node.internal (_sha3_leaves (_sha3 [1]) (_sha3 [2]))
           (Node.leaf (_sha3 [1])) (Node.leaf (_sha3 [2])),
         Node.internal (_sha3_leaves (_sha3 [3]) (_sha3 [3]))
           (Node.leaf (_sha3 [3])) (Node.leaf (_sha3 [3]))] from rfl]
  rw [_build_up_step 2 _ (by simp), padLevel_even _ (by simp)]
  rw [show pairUp
        [Node.internal (_sha3_leaves (_sha3 [1]) (_sha3 [2]))
           (Node.leaf (_sha3 [1])) (Node.leaf (_sha3 [2])),
         Node.internal (_sha3_leaves (_sha3 [3]) (_sha3 [3]))
           (Node.leaf (_sha3 [3])) (Node.leaf (_sha3 [3]))]
      = [exampleTree3.root] from rfl]
  rw [_build_up_one 1 _ (by simp)]
  rfl

/-! ## The claims -/

/-- C1: for every tree built from a non-empty item list and every index
`i < tree.size`, the proof returned by `get_proof` verifies against the root
per the spec's §4.4 verifier: starting from `current = hash_leaf(items[i])`
and folding each tagged sibling in proof order — sibling on the left for a
left-tagged element, on the right for a right-tagged one — the final value
equals `get_root_hash`. -/
theorem claim_C1_proof_verifies (items : List (List Nat)) (t : MerkleTree) (i : Nat)
    (hb : MerkleTree.build items = some t) (hi : i < t.size) :
    ∃ proof, t.get_proof i = some (some proof) ∧
      verify (items.getD i []) proof t.get_root_hash = true := by
  obtain ⟨proof, hp, _, hfold, _⟩ := get_proof_spec i hb hi
  refine ⟨proof, hp, ?_⟩
  simp only [verify]
  rw [hfold]
  simp

theorem claim_C1_witness :
    ∃ proof, exampleTree3.get_proof 1 = some (some proof) ∧
      verify ([[1], [2], [3]].getD 1 []) proof exampleTree3.get_root_hash = true :=
  claim_C1_proof_verifies [[1], [2], [3]] exampleTree3 1 build3_eq (by decide)

/-- C2: the spec says `build` fails with an `EmptyInputError` on zero items,
but the code has no error path at all: on the empty input `_build_up` maps
the empty level to the empty level and recurses forever (no fuel ever
suffices), so `build` neither returns nor signals an error. -/
theorem claim_C2_build_empty_diverges :
    MerkleTree.build [] = none ∧ ∀ fuel, _build_up fuel [] = none :=
  ⟨rfl, _build_up_empty⟩

/-- C3: `get_proof` returns the out-of-range signal exactly when
`index ≥ tree.size`; every in-range index yields a proof, which is empty
precisely for the single-leaf tree. -/
theorem claim_C3_get_proof_range (items : List (List Nat)) (t : MerkleTree) (i : Nat)
    (hb : MerkleTree.build items = some t) :
    (t.get_proof i = some none ↔ t.size ≤ i) ∧
    (i < t.size → ∃ proof, t.get_proof i = some (some proof) ∧
      (proof = [] ↔ t.size = 1)) := by
  obtain ⟨hsz, hne, -⟩ := build_eq_some hb
  constructor
  · constructor
    · intro hnone
      by_contra hcon
      push_neg at hcon
      obtain ⟨proof, hp, -⟩ := get_proof_spec i hb hcon
      rw [hp] at hnone
      simp at hnone
    · intro hle
      unfold MerkleTree.get_proof
      rw [if_pos hle]
  · intro hi
    obtain ⟨proof, hp, hlen, -⟩ := get_proof_spec i hb hi
    refine ⟨proof, hp, ?_⟩
    rw [← List.length_eq_zero, hlen, ceilLog2_eq_zero_iff]
    omega

theorem claim_C3_witness :
    (exampleTree1.get_proof 2 = some none ↔ exampleTree1.size ≤ 2) ∧
    (2 < exampleTree1.size → ∃ proof, exampleTree1.get_proof 2 = some (some proof) ∧
      (proof = [] ↔ exampleTree1.size = 1)) :=
  claim_C3_get_proof_range [[1]] exampleTree1 2 rfl

/-- C4: for every `size ≥ 1` the `level_size` computed at the start of
`get_proof` is the smallest power of two that is at least `size`. -/
theorem claim_C4_level_size (size : Nat) (h1 : 1 ≤ size) :
    size ≤ levelSizeOf size ∧ (∃ k, levelSizeOf size = 2 ^ k) ∧
    (∀ m, size ≤ 2 ^ m → levelSizeOf size ≤ 2 ^ m) :=
  ⟨le_pow_ceilLog2 size h1, ⟨ceilLog2 size, rfl⟩,
    fun m hm => Nat.pow_le_pow_right (by omega) (ceilLog2_le size m hm)⟩

theorem claim_C4_witness :
    1 ≤ 3 ∧ (3 ≤ levelSizeOf 3 ∧ (∃ k, levelSizeOf 3 = 2 ^ k) ∧
      (∀ m, 3 ≤ 2 ^ m → levelSizeOf 3 ≤ 2 ^ m)) :=
  ⟨by decide, claim_C4_level_size 3 (by decide)⟩

/-- C5: every node of a built tree satisfies the hash invariant — an
internal node's hash is `_sha3_leaves` of its children's hashes and every
leaf's hash is `_sha3` of one of the original items.  In particular the
padding duplicates carry a digest identical to the node they clone (had a
duplicate been re-hashed, its leaf hash would fall outside the image of the
original items and the invariant would fail). -/
theorem claim_C5_hash_invariant (items : List (List Nat)) (t : MerkleTree)
    (hb : MerkleTree.build items = some t) :
    hashInvariant (items.map _sha3) t.root :=
  (build_eq_some hb).2.2.2.1

theorem claim_C5_witness :
    hashInvariant ([[1], [2], [3]].map _sha3) exampleTree3.root :=
  claim_C5_hash_invariant [[1], [2], [3]] exampleTree3 build3_eq

/-- C6: every in-range proof has exactly `⌈log₂ size⌉` elements — stated
both through the embedded ceiling-log and through its characteristic
property (the length is the least `m` with `size ≤ 2 ^ m`). -/
theorem claim_C6_proof_length (items : List (List Nat)) (t : MerkleTree) (i : Nat)
    (hb : MerkleTree.build items = some t) (hi : i < t.size) :
    ∃ proof, t.get_proof i = some (some proof) ∧
      proof.length = ceilLog2 t.size ∧
      t.size ≤ 2 ^ proof.length ∧
      (∀ m, t.size ≤ 2 ^ m → proof.length ≤ m) := by
  obtain ⟨hsz, hne, -⟩ := build_eq_some hb
  obtain ⟨proof, hp, hlen, -⟩ := get_proof_spec i hb hi
  refine ⟨proof, hp, hlen, ?_, ?_⟩
  · rw [hlen]
    exact le_pow_ceilLog2 t.size (by omega)
  · intro m hm
    rw [hlen]
    exact ceilLog2_le t.size m hm

theorem claim_C6_witness :
    ∃ proof, exampleTree3.get_proof 0 = some (some proof) ∧
      proof.length = ceilLog2 exampleTree3.size ∧
      exampleTree3.size ≤ 2 ^ proof.length ∧
      (∀ m, exampleTree3.size ≤ 2 ^ m → proof.length ≤ m) :=
  claim_C6_proof_length [[1], [2], [3]] exampleTree3 0 build3_eq (by decide)

/-- C7: for every non-empty item sequence, `build` succeeds and records the
original pre-padding item count as `size`. -/
theorem claim_C7_size_eq_len (items : List (List Nat)) (hne : items ≠ []) :
    ∃ t, MerkleTree.build items = some t ∧ t.size = items.length := by
  obtain ⟨t, ht⟩ := build_total items hne
  exact ⟨t, ht, (build_eq_some ht).1⟩

theorem claim_C7_witness :
    [[1], [2]] ≠ ([] : List (List Nat)) ∧
    ∃ t, MerkleTree.build [[1], [2]] = some t ∧ t.size = [[1], [2]].length :=
  ⟨by decide, claim_C7_size_eq_len [[1], [2]] (by decide)⟩

/-- C8: a single-item input yields a tree whose root is that one leaf (no
internal nodes): the root hash is `hash_leaf` of the item and the proof for
index 0 is empty. -/
theorem claim_C8_single_item (x : List Nat) :
    ∃ t, MerkleTree.build [x] = some t ∧ t.root = Node.leaf (_sha3 x) ∧
      t.get_root_hash = _sha3 x ∧ t.get_proof 0 = some (some []) :=
  ⟨⟨Node.leaf (_sha3 x), 1⟩, rfl, rfl, rfl, rfl⟩

/-- C9: every element of a returned proof is a 33-byte vector: a 32-byte
sibling digest followed by a side tag byte that is 108 (`'l'`) or 114
(`'r'`) and never anything else. -/
theorem claim_C9_element_format (items : List (List Nat)) (t : MerkleTree) (i : Nat)
    (hb : MerkleTree.build items = some t) (hi : i < t.size) :
    ∃ proof, t.get_proof i = some (some proof) ∧
      ∀ e ∈ proof, e.length = 33 ∧ e.dropLast.length = 32 ∧
        (e.getLast? = some 108 ∨ e.getLast? = some 114) := by
  obtain ⟨proof, hp, -, -, helem⟩ := get_proof_spec i hb hi
  refine ⟨proof, hp, fun e he => ?_⟩
  obtain ⟨hlen, htag⟩ := helem e he
  exact ⟨hlen, by rw [List.length_dropLast, hlen], htag⟩

theorem claim_C9_witness :
    ∃ proof, exampleTree2.get_proof 1 = some (some proof) ∧
      ∀ e ∈ proof, e.length = 33 ∧ e.dropLast.length = 32 ∧
        (e.getLast? = some 108 ∨ e.getLast? = some 114) :=
  claim_C9_element_format [[1], [2]] exampleTree2 1 rfl (by decide)

/-- C10: on a built tree the root-to-leaf walk of `get_proof` never
dereferences an absent child for any in-range index: the walk over the
derived direction bits returns a path (it never hits a leaf early, which is
how the embedding models the `unwrap` panic), so `get_proof` cannot panic. -/
theorem claim_C10_walk_total (items : List (List Nat)) (t : MerkleTree) (i : Nat)
    (hb : MerkleTree.build items = some t) (hi : i < t.size) :
    (∃ path,
      walk ((bitsUpAux (levelSizeOf t.size + i) (levelSizeOf t.size + i)).reverse)
        t.root = some path) ∧
    t.get_proof i ≠ none := by
  obtain ⟨hsz, hne, hP, -⟩ := build_eq_some hb
  have hik : i < 2 ^ ceilLog2 items.length := by
    have h2 := le_pow_ceilLog2 items.length hne
    omega
  obtain ⟨path, hwalk, -⟩ := walk_correct (ceilLog2 items.length) t.root i hP hik
  have hls : levelSizeOf t.size = 2 ^ ceilLog2 items.length := by
    rw [hsz]
    rfl
  have hdirs : (bitsUpAux (levelSizeOf t.size + i) (levelSizeOf t.size + i)).reverse
      = msbBits (ceilLog2 items.length) i := by
    rw [hls]
    exact bitsUpAux_reverse _ i _ hik (by omega)
  refine ⟨⟨path, by rw [hdirs]; exact hwalk⟩, ?_⟩
  unfold MerkleTree.get_proof
  rw [if_neg (by omega)]
  simp only [hdirs, hwalk]
  simp

theorem claim_C10_witness :
    (∃ path,
      walk ((bitsUpAux (levelSizeOf exampleTree3.size + 2)
          (levelSizeOf exampleTree3.size + 2)).reverse)
        exampleTree3.root = some path) ∧
    exampleTree3.get_proof 2 ≠ none :=
  claim_C10_walk_total [[1], [2], [3]] exampleTree3 2 build3_eq (by decide)
